import Mathlib

/-!
Verification development for the AI_Deleter text-humanization pipeline
(`AI_Deleter.py`).  The definitions below are a shallow embedding of the
core pipeline: the post-processor `humanize_output`, the chunker
`split_into_chunks`, the multi-pass controller `_process_text`, the
settings model, and the intermediate-output export.

Python strings are modelled as Lean `String` / `List Char`; the regular
expressions used by the source are tiny fixed patterns and are embedded
as explicit structural scanners with the same leftmost / greedy
semantics.
-/

namespace AIDeleter

/-- ASCII whitespace, the characters matched by Python's `\s` on the
ASCII range (the inputs of interest contain no exotic Unicode spaces). -/
def isPySpace (c : Char) : Bool :=
  c = ' ' || c = '\t' || c = '\n' || c = '\r' || c = '\x0b' || c = '\x0c'

/-- The em-dash and en-dash characters of the `[—–]` character class. -/
def isDashChar (c : Char) : Bool :=
  c = '—' || c = '–'

/-- Sentence-terminal punctuation of the `(?<=[.!?])` lookbehind. -/
def isTermPunct (c : Char) : Bool :=
  c = '.' || c = '!' || c = '?'

/-- `re.sub(r'[—–]', repl, ·)` : replace every single dash. -/
def subDash (repl : List Char) : List Char → List Char
  | [] => []
  | c :: cs => if isDashChar c then repl ++ subDash repl cs else c :: subDash repl cs

/-- Scanner for `re.sub(r'\s*X\s*', repl, ·)` where `X` is the character
class `isT`.  `afterMatch = true` means we are consuming the greedy
trailing `\s*` of a match just emitted; `pending` buffers whitespace that
may become the leading `\s*` of the next match (it is flushed verbatim
when no target follows it, matching Python's leftmost-match semantics). -/
def subPadGo (isT : Char → Bool) (repl : List Char) :
    Bool → List Char → List Char → List Char
  | true, _, [] => []
  | false, pending, [] => pending.reverse
  | true, _, c :: cs =>
    if isPySpace c then subPadGo isT repl true [] cs
    else if isT c then repl ++ subPadGo isT repl true [] cs
    else c :: subPadGo isT repl false [] cs
  | false, pending, c :: cs =>
    if isPySpace c then subPadGo isT repl false (c :: pending) cs
    else if isT c then repl ++ subPadGo isT repl true [] cs
    else pending.reverse ++ c :: subPadGo isT repl false [] cs

/-- `re.sub(r'\s*X\s*', repl, ·)` for a single-character class `X`. -/
def subPad (isT : Char → Bool) (repl : List Char) (l : List Char) : List Char :=
  subPadGo isT repl false [] l

/-- Scanner for `re.sub(r',\s*,', ',', ·)`.  `held = some pend` means a
comma has been read and `pend` buffers the whitespace read after it; if
another comma follows, the whole match collapses to a single comma and
scanning resumes after it (the replacement is not rescanned). -/
def subDCGo : Option (List Char) → List Char → List Char
  | none, [] => []
  | some pend, [] => ',' :: pend.reverse
  | none, c :: cs => if c = ',' then subDCGo (some []) cs else c :: subDCGo none cs
  | some pend, c :: cs =>
    if c = ',' then ',' :: subDCGo none cs
    else if isPySpace c then subDCGo (some (c :: pend)) cs
    else ',' :: pend.reverse ++ c :: subDCGo none cs

/-- `re.sub(r',\s*,', ',', ·)` : collapse doubled commas. -/
def subDoubleComma (l : List Char) : List Char :=
  subDCGo none l

/-- Scanner for `re.sub(r',\s*\.', '.', ·)`.  As in `subDCGo`, a held
comma waits for a period through buffered whitespace; a fresh comma
restarts a potential match. -/
def subCDGo : Option (List Char) → List Char → List Char
  | none, [] => []
  | some pend, [] => ',' :: pend.reverse
  | none, c :: cs => if c = ',' then subCDGo (some []) cs else c :: subCDGo none cs
  | some pend, c :: cs =>
    if c = '.' then '.' :: subCDGo none cs
    else if isPySpace c then subCDGo (some (c :: pend)) cs
    else if c = ',' then ',' :: pend.reverse ++ subCDGo (some []) cs
    else ',' :: pend.reverse ++ c :: subCDGo none cs

/-- `re.sub(r',\s*\.', '.', ·)` : delete a comma before a period. -/
def subCommaDot (l : List Char) : List Char :=
  subCDGo none l

/-- Scanner for `re.sub(r'\s+', ' ', ·)`; `inWs = true` while inside a
whitespace run whose single replacement `' '` has already been emitted. -/
def collapseGo : Bool → List Char → List Char
  | _, [] => []
  | inWs, c :: cs =>
    if isPySpace c then
      if inWs then collapseGo true cs else ' ' :: collapseGo true cs
    else c :: collapseGo false cs

/-- `re.sub(r'\s+', ' ', ·)` : collapse every whitespace run to one space. -/
def collapseWs (l : List Char) : List Char :=
  collapseGo false l

/-- Python `str.strip()` : drop leading and trailing whitespace. -/
def pyStrip (l : List Char) : List Char :=
  ((l.dropWhile isPySpace).reverse.dropWhile isPySpace).reverse

/-- The replacement `', '` used for dashes and comma-spacing. -/
def commaSpace : List Char := [',', ' ']

/-- `humanize_output` (AI_Deleter.py, lines 477-505): deterministic
post-processing of one generated candidate.  When `remove_dashes` is
set: dashes (with optional surrounding whitespace) become `", "`, plain
dashes become `", "`, doubled commas collapse, comma spacing becomes
`", "`, and a comma before a period is dropped.  Always: whitespace runs
collapse to a single space and the ends are stripped. -/
def humanize_output (remove_dashes : Bool) (s : String) : String :=
  let r := s.data
  let r :=
    if remove_dashes then
      let r := subPad isDashChar commaSpace r     -- re.sub(r'\s*[—–]\s*', ', ', ·)
      let r := subDash commaSpace r               -- re.sub(r'[—–]', ', ', ·)
      let r := subDoubleComma r                   -- re.sub(r',\s*,', ',', ·)
      let r := subPad (fun c => c = ',') commaSpace r  -- re.sub(r'\s*,\s*', ', ', ·)
      let r := subCommaDot r                      -- re.sub(r',\s*\.', '.', ·)
      r
    else r
  let r := collapseWs r                           -- re.sub(r'\s+', ' ', ·)
  String.mk (pyStrip r)                           -- .strip()

/-! ## Chunker (`split_into_chunks`, AI_Deleter.py lines 430-475) -/

/-- Scanner for `re.split(r'(?<=[.!?])\s+', ·)`.  The state is `none`
while consuming the greedy `\s+` of a split just made, and
`some (piece, prevPunct)` while building the current piece in reverse
with the lookbehind flag for its last character. -/
def splitSentGo : Option (List Char × Bool) → List Char → List (List Char)
  | none, [] => [[]]
  | some (piece, _), [] => [piece.reverse]
  | none, c :: cs =>
    if isPySpace c then splitSentGo none cs
    else splitSentGo (some ([c], isTermPunct c)) cs
  | some (piece, pp), c :: cs =>
    if isPySpace c && pp then piece.reverse :: splitSentGo none cs
    else splitSentGo (some (c :: piece, isTermPunct c)) cs

/-- `re.split(r'(?<=[.!?])\s+', text)` : raw sentence fragments. -/
def splitSentences (l : List Char) : List (List Char) :=
  splitSentGo (some ([], false)) l

/-- State of the `re.split(r'[,;]\s+', ·)` scanner: building a piece,
holding a just-read delimiter that still needs a following whitespace
char to count as a split, or consuming the greedy `\s+` of a split. -/
inductive CommaSplitSt where
  | piece (rev : List Char) : CommaSplitSt
  | held (rev : List Char) (d : Char) : CommaSplitSt
  | skip : CommaSplitSt

/-- Scanner for `re.split(r'[,;]\s+', ·)`. -/
def splitCommaGo : CommaSplitSt → List Char → List (List Char)
  | .piece rev, [] => [rev.reverse]
  | .held rev d, [] => [(d :: rev).reverse]
  | .skip, [] => [[]]
  | .piece rev, c :: cs =>
    if c = ',' || c = ';' then splitCommaGo (.held rev c) cs
    else splitCommaGo (.piece (c :: rev)) cs
  | .held rev d, c :: cs =>
    if isPySpace c then rev.reverse :: splitCommaGo .skip cs
    else if c = ',' || c = ';' then splitCommaGo (.held (d :: rev) c) cs
    else splitCommaGo (.piece (c :: d :: rev)) cs
  | .skip, c :: cs =>
    if isPySpace c then splitCommaGo .skip cs
    else if c = ',' || c = ';' then splitCommaGo (.held [] c) cs
    else splitCommaGo (.piece [c]) cs

/-- `re.split(r'[,;]\s+', sentence)` on a string. -/
def splitCommaSemicolon (s : String) : List String :=
  (splitCommaGo (.piece []) s.data).map String.mk

/-- `sentences = [s.strip() for s in re.split(...) if s.strip()]`
(lines 433-434): stripped, non-empty sentence fragments in order. -/
def sentencesOf (text : String) : List String :=
  (((splitSentences text.data).map pyStrip).filter (fun l => !l.isEmpty)).map String.mk

/-- `' '.join(xs)` : join with a single space. -/
def joinSp : List String → String
  | [] => ""
  | [s] => s
  | s :: rest => s ++ " " ++ joinSp rest

/-- The fixed task prefix prepended before token counting/generation. -/
def taskPrefix : String := "paraphraser: "

/-- The greedy packing loop of `split_into_chunks` (lines 436-473),
returning each chunk as its list of constituent sentences (the code
keeps `current_chunk` as exactly such a list and space-joins it when a
chunk is closed; comma-split parts of an oversized sentence are emitted
as singleton chunks).  `tok` is the tokenization adapter
`len(tokenizer.encode(·, add_special_tokens=True))`. -/
def packLoop (tok : String → Nat) :
    List String → List String → Nat → List (List String)
  | [], cur, _ => if cur.isEmpty then [] else [cur]
  | sentence :: rest, cur, curTok =>
    let numTokens := tok (taskPrefix ++ sentence)
    if numTokens > 60 then
      -- oversized sentence: flush, then split on commas/semicolons;
      -- each part is appended whether or not it still exceeds the budget
      (if cur.isEmpty then [] else [cur]) ++
        (splitCommaSemicolon sentence).map (fun part => [part]) ++
        packLoop tok rest [] 0
    else
      if curTok + numTokens > 60 then
        [cur] ++ packLoop tok rest [sentence] numTokens
      else
        packLoop tok rest (cur ++ [sentence]) (curTok + numTokens)

/-- `split_into_chunks` (lines 430-475): sentence split, then greedy
packing under the 60-token budget with comma-splitting of oversized
sentences. -/
def split_into_chunks (tok : String → Nat) (text : String) : List String :=
  (packLoop tok (sentencesOf text) [] 0).map joinSp

/-! ## Settings (AI_Deleter.py lines 97-107 and the settings mutators) -/

/-- The `settings["strength"]` values offered by the UI selector. -/
inductive Strength where
  | Standard | High | Maximum
deriving DecidableEq

/-- The string stored in `settings["strength"]`. -/
def strengthName : Strength → String
  | .Standard => "Standard"
  | .High => "High"
  | .Maximum => "Maximum"

/-- The `self.settings` dictionary (lines 98-107). -/
structure Settings where
  custom_passes : Nat
  remove_dashes : Bool
  use_custom_passes : Bool
  strength : Strength
  save_intermediate : Bool
  intermediate_format : String
  highlight_paraphraser : Bool
  highlight_intensity : Nat
deriving DecidableEq

/-- The defaults of lines 98-107. -/
def defaultSettings : Settings :=
  ⟨1, true, false, .High, true, "json", true, 50⟩

/-- `passes = {"Standard": 1, "High": 1, "Maximum": 2}[strength]`
(line 1021). -/
def passesFor : Strength → Nat
  | .Standard => 1
  | .High => 1
  | .Maximum => 2

/-- `num_beams` from the strength if/elif/else (lines 1024-1032). -/
def numBeamsFor : Strength → Nat
  | .Standard => 4
  | .High => 8
  | .Maximum => 10

/-- `repetition_penalty` from the same if/elif/else. -/
def repetitionPenaltyFor : Strength → ℚ
  | .Standard => 10
  | .High => 12
  | .Maximum => 15

/-- The effective pass count (lines 1017-1021): the custom value when
`use_custom_passes`, else the strength table. -/
def effectivePasses (s : Settings) : Nat :=
  if s.use_custom_passes then s.custom_passes else passesFor s.strength

/-! ## Generation Client boundary -/

/-- The keyword arguments of `self.model.generate` (lines 1075-1086);
`num_return_sequences = 4` and the decoding constants are fixed. -/
structure GenParams where
  num_beams : Nat
  num_return_sequences : Nat
  repetition_penalty : ℚ
  length_penalty : ℚ
  no_repeat_ngram_size : Nat
  max_length : Nat
  min_length : Nat
  early_stopping : Bool
  do_sample : Bool
deriving DecidableEq

/-- The generation parameters used for a given strength. -/
def genParamsFor (st : Strength) : GenParams :=
  ⟨numBeamsFor st, 4, repetitionPenaltyFor st, 3/2, 3, 80, 10, true, false⟩

/-- The list of exactly 4 candidate strings returned by one generation
call (decoded by `tokenizer.batch_decode`). -/
structure Cand4 where
  c0 : String
  c1 : String
  c2 : String
  c3 : String
deriving DecidableEq

/-- The opaque Generation Client: given the generation parameters and
the prefixed text, return 4 candidates or raise an (opaque) error whose
message is the string carried by `.error`. -/
abbrev GenFun : Type := GenParams → String → Except String Cand4

/-- Post-processing applied to each of the 4 candidates (line 1092). -/
def humanizeCand (remove_dashes : Bool) (c : Cand4) : Cand4 :=
  ⟨humanize_output remove_dashes c.c0, humanize_output remove_dashes c.c1,
   humanize_output remove_dashes c.c2, humanize_output remove_dashes c.c3⟩

/-! ## Pass Controller (`_process_text`, lines 1011-1123) -/

/-- One `self._update_progress` notification: `(current, total, message)`. -/
abbrev Ev : Type := Nat × Nat × String

/-- One entry of `self.intermediate_outputs`: the chunk's original text
and the post-processed 4-candidate record of each pass in order. -/
abbrev ChunkData : Type := String × List Cand4

/-- Result of the per-chunk pass loop: the progress events emitted, the
generation calls made (params and prefixed text, in order), and either
the error message raised by the Generation Client or the per-pass
records, the value of the Python variable `paraphrases` after the loop
(`none` when no pass ever assigned it), and the updated `chunk_counter`. -/
structure PassOut where
  events : List Ev
  calls : List (GenParams × String)
  res : Except String (List Cand4 × Option Cand4 × Nat)

/-- The inner loop `for pass_num in range(passes)` of `_process_text`
(lines 1056-1102), recursing on the number of passes left.  Each
iteration: progress event with the pre-increment counter, prefix the
working text, invoke the Generation Client (an error aborts the run),
post-process the 4 candidates, record them (when `save_intermediate`),
and, when another pass follows, take candidate 0 as the next working
text.  `lastPara` threads the Python variable `paraphrases`. -/
def passLoop (gen : GenFun) (p : GenParams) (rd saveI : Bool) (total : Nat) :
    Nat → String → Nat → Option Cand4 → PassOut
  | 0, _, counter, lastPara => ⟨[], [], .ok ([], lastPara, counter)⟩
  | remaining + 1, processed, counter, _ =>
    let ev : Ev := (counter, total,
      "Processing chunk " ++ toString (counter + 1) ++ "/" ++ toString total)
    let prefixed := taskPrefix ++ processed
    match gen p prefixed with
    | .error e => ⟨[ev], [(p, prefixed)], .error e⟩
    | .ok raw =>
      let para := humanizeCand rd raw
      let next := if 0 < remaining then para.c0 else processed
      let rest := passLoop gen p rd saveI total remaining next (counter + 1) (some para)
      ⟨ev :: rest.events, (p, prefixed) :: rest.calls,
       match rest.res with
       | .error e => .error e
       | .ok (recs, lp, ctr) => .ok ((if saveI then para :: recs else recs), lp, ctr)⟩

/-- The 4 growing version lists `all_versions` (line 1042). -/
structure Versions where
  v0 : List String
  v1 : List String
  v2 : List String
  v3 : List String
deriving DecidableEq

/-- `for i, paraphrase in enumerate(paraphrases): all_versions[i].append(...)`
(lines 1109-1110). -/
def appendVers (v : Versions) (c : Cand4) : Versions :=
  ⟨v.v0 ++ [c.c0], v.v1 ++ [c.c1], v.v2 ++ [c.c2], v.v3 ++ [c.c3]⟩

/-- The Python message raised when the version-append step reads the
variable `paraphrases` although no pass ever assigned it. -/
def unboundParaphrasesMsg : String :=
  "cannot access local variable 'paraphrases' where it is not associated with a value"

/-- The outer loop `for chunk_index, chunk in enumerate(chunks)` of
`_process_text` (lines 1045-1110).  After a chunk's passes: append its
`(original, outputs)` record to the intermediate store (when
`save_intermediate`), then append the last pass's 4 candidates to the 4
version lists — reading `paraphrases`, which is unbound if no pass ran.
The accumulated intermediate store is returned even when the run
aborts (it lives on the application object). -/
def chunkLoop (gen : GenFun) (p : GenParams) (rd saveI : Bool) (total passes : Nat) :
    List String → Nat → Option Cand4 → List ChunkData → Versions →
    List Ev × List (GenParams × String) × List ChunkData × Except String (Versions × Nat)
  | [], ctr, _, inter, vers => ([], [], inter, .ok (vers, ctr))
  | chunk :: rest, ctr, lp, inter, vers =>
    let po := passLoop gen p rd saveI total passes chunk ctr lp
    match po.res with
    | .error e => (po.events, po.calls, inter, .error e)
    | .ok (recs, lp', ctr') =>
      let inter' := if saveI then inter ++ [(chunk, recs)] else inter
      match lp' with
      | none => (po.events, po.calls, inter', .error unboundParaphrasesMsg)
      | some para =>
        let out := chunkLoop gen p rd saveI total passes rest ctr' (some para)
          inter' (appendVers vers para)
        (po.events ++ out.1, po.calls ++ out.2.1, out.2.2.1, out.2.2.2)

/-- Everything `_process_text` leaves behind: the progress events in
emission order, the generation calls in order, the intermediate store,
and either the final `all_outputs` (4 version strings) or the error
message passed to `_update_output` on failure. -/
structure RunOut where
  events : List Ev
  calls : List (GenParams × String)
  inter : List ChunkData
  outcome : Except String (List String)

/-- `_process_text` (lines 1011-1123): strength-derived parameters,
chunking, the initial progress event, the chunk/pass loops, version
joining, and the terminal `Complete!` event; any exception is converted
to the message `"Error during processing:\n" + str(e)`. -/
def processText (gen : GenFun) (tok : String → Nat) (st : Settings)
    (input : String) : RunOut :=
  let passes := effectivePasses st
  let p := genParamsFor st.strength
  let chunks := split_into_chunks tok input
  let total := chunks.length * passes
  let ev0 : Ev := (0, total,
    "Processing with " ++ toString passes ++ " pass" ++
      (if passes != 1 then "es" else "") ++ "...")
  let r := chunkLoop gen p st.remove_dashes st.save_intermediate total passes
    chunks 0 none [] ⟨[], [], [], []⟩
  match r.2.2.2 with
  | .error e =>
    ⟨ev0 :: r.1, r.2.1, r.2.2.1, .error ("Error during processing:\n" ++ e)⟩
  | .ok (vers, _) =>
    ⟨ev0 :: r.1 ++ [(total, total, "Complete!")], r.2.1, r.2.2.1,
     .ok [joinSp vers.v0, joinSp vers.v1, joinSp vers.v2, joinSp vers.v3]⟩

/-- `totalUnits` of a run: chunk count times effective pass count
(line 1036). -/
def totalUnits (tok : String → Nat) (st : Settings) (input : String) : Nat :=
  (split_into_chunks tok input).length * effectivePasses st

/-! ## Settings mutators reachable from the UI -/

/-- Python `str.isdigit()` restricted to ASCII digits: non-empty and
all characters are digits. -/
def pyIsDigit (s : String) : Bool :=
  !s.data.isEmpty && s.data.all Char.isDigit

/-- `int(·)` on a digit string. -/
def decimalVal (s : String) : Nat :=
  s.data.foldl (fun n c => n * 10 + (c.toNat - '0'.toNat)) 0

/-- Rebuild a `Settings` with a new `custom_passes`. -/
def setCustomPasses (s : Settings) (p : Nat) : Settings :=
  ⟨p, s.remove_dashes, s.use_custom_passes, s.strength, s.save_intermediate,
   s.intermediate_format, s.highlight_paraphraser, s.highlight_intensity⟩

/-- `update_passes` (lines 824-840): the entry text is stripped; only a
non-empty all-digit value parsing to a positive integer is stored into
`settings["custom_passes"]` (zero only warns and restores the entry;
settings are unchanged). -/
def update_passes (raw : String) (s : Settings) : Settings :=
  let value := String.mk (pyStrip raw.data)
  if value ≠ "" && pyIsDigit value then
    let passes := decimalVal value
    if passes > 0 then setCustomPasses s passes else s
  else s

/-- Every settings mutation reachable from the UI entry points
(`update_strength` line 509, `toggle_highlight` line 514,
`update_highlight_intensity` line 522, `toggle_custom_passes` line 582,
`update_passes` lines 824-840, `update_dash` line 844,
`update_intermediate` line 850, `update_format` line 856,
`update_highlight` line 862, `update_intensity_settings` line 875). -/
inductive SettingsOp where
  | updateStrength (v : Strength)
  | toggleHighlight (b : Bool)
  | updateHighlightIntensity (n : Nat)
  | toggleCustomPasses (b : Bool)
  | updatePasses (raw : String)
  | updateDash (b : Bool)
  | updateIntermediate (b : Bool)
  | updateFormat (f : String)

/-- Apply one UI settings mutation. -/
def applyOp : SettingsOp → Settings → Settings
  | .updateStrength v, s =>
    ⟨s.custom_passes, s.remove_dashes, s.use_custom_passes, v,
     s.save_intermediate, s.intermediate_format, s.highlight_paraphraser,
     s.highlight_intensity⟩
  | .toggleHighlight b, s =>
    ⟨s.custom_passes, s.remove_dashes, s.use_custom_passes, s.strength,
     s.save_intermediate, s.intermediate_format, b, s.highlight_intensity⟩
  | .updateHighlightIntensity n, s =>
    ⟨s.custom_passes, s.remove_dashes, s.use_custom_passes, s.strength,
     s.save_intermediate, s.intermediate_format, s.highlight_paraphraser, n⟩
  | .toggleCustomPasses b, s =>
    ⟨s.custom_passes, s.remove_dashes, b, s.strength, s.save_intermediate,
     s.intermediate_format, s.highlight_paraphraser, s.highlight_intensity⟩
  | .updatePasses raw, s => update_passes raw s
  | .updateDash b, s =>
    ⟨s.custom_passes, b, s.use_custom_passes, s.strength, s.save_intermediate,
     s.intermediate_format, s.highlight_paraphraser, s.highlight_intensity⟩
  | .updateIntermediate b, s =>
    ⟨s.custom_passes, s.remove_dashes, s.use_custom_passes, s.strength, b,
     s.intermediate_format, s.highlight_paraphraser, s.highlight_intensity⟩
  | .updateFormat f, s =>
    ⟨s.custom_passes, s.remove_dashes, s.use_custom_passes, s.strength,
     s.save_intermediate, f, s.highlight_paraphraser, s.highlight_intensity⟩

/-- Apply a sequence of UI settings mutations, oldest first. -/
def applyOps (ops : List SettingsOp) (s : Settings) : Settings :=
  ops.foldl (fun acc op => applyOp op acc) s

/-! ## Intermediate Store export (`save_intermediate_outputs`, lines 900-982) -/

/-- The structured (JSON) export: the `output_data` dictionary of lines
931-936, serialized verbatim by `json.dump` (which never truncates). -/
structure ExportDoc where
  timestamp : String
  settings : Settings
  intermediate_outputs : List ChunkData
  final_outputs : List String
deriving DecidableEq

/-- Build the structured export document. -/
def jsonExport (timestamp : String) (st : Settings) (inter : List ChunkData)
    (outs : List String) : ExportDoc :=
  ⟨timestamp, st, inter, outs⟩

/-- Python `repr`-free `f"{bool}"` rendering. -/
def pyBool (b : Bool) : String := if b then "True" else "False"

/-- `c * n` for a one-character string, e.g. `"=" * 50`. -/
def repChar (c : Char) (n : Nat) : String := String.mk (List.replicate n c)

/-- One `Version {j+1}: {output[:100]}...` line of the flat export
(line 967): the candidate is truncated to 100 characters for display. -/
def candLine (j : Nat) (s : String) : String :=
  "    Version " ++ toString (j + 1) ++ ": " ++ s.take 100 ++ "...\n"

/-- The four candidate lines of one pass record. -/
def candLines (c : Cand4) : String :=
  candLine 0 c.c0 ++ candLine 1 c.c1 ++ candLine 2 c.c2 ++ candLine 3 c.c3

/-- Fold an enumerated list to a string, numbering from `i`. -/
def enumConcat (f : Nat → α → String) : Nat → List α → String
  | _, [] => ""
  | i, a :: as => f i a ++ enumConcat f (i + 1) as

/-- One `Pass {pass_num+1}` block (lines 964-967). -/
def passBlock (passNum : Nat) (c : Cand4) : String :=
  "\n  Pass " ++ toString (passNum + 1) ++ ":\n" ++ candLines c

/-- One `CHUNK {i+1}` block (lines 960-968). -/
def chunkBlock (i : Nat) (cd : ChunkData) : String :=
  "CHUNK " ++ toString (i + 1) ++ ":\n" ++ repChar '-' 30 ++ "\n" ++
    enumConcat passBlock 0 cd.2 ++ "\n"

/-- One final-output block (lines 974-977). -/
def finalBlock (i : Nat) (out : String) : String :=
  "Version " ++ toString (i + 1) ++ ":\n" ++ repChar '-' 30 ++ "\n" ++
    out ++ "\n\n"

/-- The flat text export (lines 944-977): header and timestamp, a
settings block listing strength, custom passes, use-custom-passes and
remove-dashes, the per-chunk per-pass candidates truncated to 100
characters, and the untruncated final outputs. -/
def txtExport (timestamp : String) (st : Settings) (inter : List ChunkData)
    (outs : List String) : String :=
  "Intermediate Outputs - " ++ timestamp ++ "\n" ++
  repChar '=' 50 ++ "\n\n" ++
  "SETTINGS:\n" ++
  "  Strength: " ++ strengthName st.strength ++ "\n" ++
  "  Custom Passes: " ++ toString st.custom_passes ++ "\n" ++
  "  Use Custom Passes: " ++ pyBool st.use_custom_passes ++ "\n" ++
  "  Remove Dashes: " ++ pyBool st.remove_dashes ++ "\n\n" ++
  "INTERMEDIATE OUTPUTS:\n" ++
  repChar '=' 50 ++ "\n\n" ++
  enumConcat chunkBlock 0 inter ++
  "\nFINAL OUTPUTS:\n" ++
  repChar '=' 50 ++ "\n\n" ++
  enumConcat finalBlock 0 outs

/-! ## Supporting lemmas about the pass and chunk loops -/

section LoopLemmas

variable (gen : GenFun) (p : GenParams) (rd saveI : Bool) (total passes : Nat)

lemma passLoop_calls_fst :
    ∀ (n : Nat) (s : String) (ctr : Nat) (lp : Option Cand4),
      ∀ c ∈ (passLoop gen p rd saveI total n s ctr lp).calls, c.1 = p := by
  intro n
  induction n with
  | zero => intro s ctr lp c hc; simp [passLoop] at hc
  | succ m ih =>
    intro s ctr lp c hc
    rw [passLoop] at hc
    rcases hg : gen p (taskPrefix ++ s) with e | raw <;> rw [hg] at hc <;>
      simp only [List.mem_cons, List.mem_singleton] at hc
    · rcases hc with rfl | h
      · rfl
      · cases h
    · rcases hc with rfl | h
      · rfl
      · exact ih _ _ _ c h

lemma chunkLoop_calls_fst :
    ∀ (chunks : List String) (ctr : Nat) (lp : Option Cand4)
      (inter : List ChunkData) (vers : Versions),
      ∀ c ∈ (chunkLoop gen p rd saveI total passes chunks ctr lp inter vers).2.1,
        c.1 = p := by
  intro chunks
  induction chunks with
  | nil => intro ctr lp inter vers c hc; simp [chunkLoop] at hc
  | cons chunk rest ih =>
    intro ctr lp inter vers c hc
    rw [chunkLoop] at hc
    rcases hres : (passLoop gen p rd saveI total passes chunk ctr lp).res with
      e | ⟨recs, lp', ctr'⟩ <;> rw [hres] at hc
    · exact passLoop_calls_fst gen p rd saveI total passes chunk ctr lp c hc
    · rcases lp' with _ | para <;> simp only at hc
      · exact passLoop_calls_fst gen p rd saveI total passes chunk ctr lp c hc
      · rcases List.mem_append.mp hc with h | h
        · exact passLoop_calls_fst gen p rd saveI total passes chunk ctr lp c h
        · exact ih _ _ _ _ c h

end LoopLemmas

/-- Every generation call of a run is made with the parameters derived
from the run's strength setting. -/
lemma processText_calls_params (gen : GenFun) (tok : String → Nat)
    (st : Settings) (input : String) :
    ∀ c ∈ (processText gen tok st input).calls, c.1 = genParamsFor st.strength := by
  intro c hc
  rw [processText] at hc
  rcases hr : (chunkLoop gen (genParamsFor st.strength) st.remove_dashes
      st.save_intermediate
      ((split_into_chunks tok input).length * effectivePasses st)
      (effectivePasses st) (split_into_chunks tok input) 0 none []
      ⟨[], [], [], []⟩).2.2.2 with e | ok <;>
    rw [hr] at hc <;>
    exact chunkLoop_calls_fst gen (genParamsFor st.strength) st.remove_dashes
      st.save_intermediate _ _ _ _ _ _ _ c hc

/-- **C2.** The strength-to-generation-parameter mapping is exactly the
fixed table — Standard: beams 4, repetition penalty 10.0, default
passes 1; High: beams 8, penalty 12.0, default passes 1; Maximum: beams
10, penalty 15.0, default passes 2 — every generation call of a run uses
exactly these strength-derived parameters (with 4 returned sequences),
and the effective pass count is `customPasses` when `usesCustomPasses`
is set, else the table's default for the strength. -/
theorem strength_table_exact :
    (numBeamsFor .Standard = 4 ∧ repetitionPenaltyFor .Standard = 10 ∧
      passesFor .Standard = 1) ∧
    (numBeamsFor .High = 8 ∧ repetitionPenaltyFor .High = 12 ∧
      passesFor .High = 1) ∧
    (numBeamsFor .Maximum = 10 ∧ repetitionPenaltyFor .Maximum = 15 ∧
      passesFor .Maximum = 2) ∧
    (∀ st : Strength,
      genParamsFor st =
        ⟨numBeamsFor st, 4, repetitionPenaltyFor st, 3/2, 3, 80, 10, true, false⟩) ∧
    (∀ gen tok st input,
      ∀ c ∈ (processText gen tok st input).calls, c.1 = genParamsFor st.strength) ∧
    (∀ s : Settings,
      effectivePasses s =
        if s.use_custom_passes then s.custom_passes else passesFor s.strength) := by
  refine ⟨⟨rfl, rfl, rfl⟩, ⟨rfl, rfl, rfl⟩, ⟨rfl, rfl, rfl⟩,
    fun st => rfl, processText_calls_params, fun s => rfl⟩

/-! ## C9: structured vs flat export -/

/-- A settings value with `save_intermediate = true`, `"json"` format. -/
def exSettingsA : Settings := ⟨1, true, false, .High, true, "json", true, 50⟩

/-- Same visible fields as `exSettingsA` but `save_intermediate = false`
and `"txt"` format. -/
def exSettingsB : Settings := ⟨1, true, false, .High, false, "txt", true, 50⟩

/-- A one-chunk, one-pass intermediate store. -/
def exInter : List ChunkData := [("chunk one", [⟨"a", "b", "c", "d"⟩])]

/-- Four final outputs. -/
def exOuts : List String := ["v1", "v2", "v3", "v4"]

/-- **C9, counterexample.** The flat text export does not expose the
whole settings snapshot: two run states whose settings differ in
`save_intermediate` (and `intermediate_format`) produce the identical
flat export, while their structured exports differ.  Hence the two forms
do not expose identical informational content. -/
theorem export_identical_content_counterexample :
    txtExport "ts" exSettingsA exInter exOuts =
      txtExport "ts" exSettingsB exInter exOuts ∧
    jsonExport "ts" exSettingsA exInter exOuts ≠
      jsonExport "ts" exSettingsB exInter exOuts :=
  ⟨rfl, by decide⟩

/-- **C9, amended.** The structured export carries the full settings
snapshot, the untruncated per-chunk per-pass candidates and the final
versions verbatim, while the flat export renders only the strength,
custom-passes, use-custom-passes and remove-dashes settings (plus the
candidates, truncated for display, and the final versions): its output
is fully determined by those fields. -/
theorem export_content_amended (ts : String) (s₁ s₂ : Settings)
    (inter : List ChunkData) (outs : List String)
    (h1 : s₁.strength = s₂.strength) (h2 : s₁.custom_passes = s₂.custom_passes)
    (h3 : s₁.use_custom_passes = s₂.use_custom_passes)
    (h4 : s₁.remove_dashes = s₂.remove_dashes) :
    txtExport ts s₁ inter outs = txtExport ts s₂ inter outs ∧
    (jsonExport ts s₁ inter outs).settings = s₁ ∧
    (jsonExport ts s₁ inter outs).intermediate_outputs = inter ∧
    (jsonExport ts s₁ inter outs).final_outputs = outs := by
  unfold txtExport
  rw [h1, h2, h3, h4]
  exact ⟨rfl, rfl, rfl, rfl⟩

/-- Witness: the amended C9 theorem applied to the two concrete settings
of the counterexample. -/
theorem export_content_amended_witness :
    txtExport "ts" exSettingsA exInter exOuts =
      txtExport "ts" exSettingsB exInter exOuts ∧
    (jsonExport "ts" exSettingsA exInter exOuts).settings = exSettingsA ∧
    (jsonExport "ts" exSettingsA exInter exOuts).intermediate_outputs = exInter ∧
    (jsonExport "ts" exSettingsA exInter exOuts).final_outputs = exOuts :=
  export_content_amended "ts" exSettingsA exSettingsB exInter exOuts rfl rfl rfl rfl

/-! ## C10: the effective pass count is always positive -/

lemma applyOp_custom_passes_pos (op : SettingsOp) (s : Settings)
    (h : 1 ≤ s.custom_passes) : 1 ≤ (applyOp op s).custom_passes := by
  cases op <;> simp only [applyOp] <;> try exact h
  case updatePasses raw =>
    simp only [update_passes]
    split_ifs with h1 h2
    · simpa [setCustomPasses] using h2
    · exact h
    · exact h

lemma applyOps_custom_passes_pos :
    ∀ (ops : List SettingsOp) (s : Settings), 1 ≤ s.custom_passes →
      1 ≤ (applyOps ops s).custom_passes := by
  intro ops
  induction ops with
  | nil => intro s h; exact h
  | cons op rest ih =>
    intro s h
    exact ih (applyOp op s) (applyOp_custom_passes_pos op s h)

lemma passLoop_lastPara_propagates (gen : GenFun) (p : GenParams)
    (rd saveI : Bool) (total : Nat) :
    ∀ (n : Nat) (s : String) (ctr : Nat) (lp : Option Cand4) recs lp' ctr',
      lp.isSome = true →
      (passLoop gen p rd saveI total n s ctr lp).res = .ok (recs, lp', ctr') →
      lp'.isSome = true := by
  intro n
  induction n with
  | zero =>
    intro s ctr lp recs lp' ctr' hlp hres
    rw [passLoop] at hres
    injection hres with h
    injection h with _ h
    injection h with h _
    exact h ▸ hlp
  | succ m ih =>
    intro s ctr lp recs lp' ctr' hlp hres
    rw [passLoop] at hres
    rcases hg : gen p (taskPrefix ++ s) with e | raw <;> rw [hg] at hres
    · cases hres
    · simp only at hres
      rcases hrest : (passLoop gen p rd saveI total m
          (if 0 < m then (humanizeCand rd raw).c0 else s) (ctr + 1)
          (some (humanizeCand rd raw))).res with e₂ | ⟨recs₂, lp₂, ctr₂⟩ <;>
        rw [hrest] at hres
      · cases hres
      · injection hres with h
        injection h with _ h
        injection h with h _
        exact h ▸ ih _ _ _ _ _ _ Option.isSome_some hrest

/-- With at least one pass, a successful pass loop always leaves the
`paraphrases` variable assigned. -/
lemma passLoop_ok_lastPara_isSome (gen : GenFun) (p : GenParams) (rd saveI : Bool)
    (total : Nat) :
    ∀ (n : Nat) (chunk : String) (ctr : Nat) (lp : Option Cand4) recs lp' ctr',
      0 < n →
      (passLoop gen p rd saveI total n chunk ctr lp).res = .ok (recs, lp', ctr') →
      lp'.isSome = true := by
  intro n chunk ctr lp recs lp' ctr' hn hres
  rcases n with _ | m
  · omega
  · rw [passLoop] at hres
    rcases hg : gen p (taskPrefix ++ chunk) with e | raw <;> rw [hg] at hres
    · cases hres
    · simp only at hres
      rcases hrest : (passLoop gen p rd saveI total m
          (if 0 < m then (humanizeCand rd raw).c0 else chunk) (ctr + 1)
          (some (humanizeCand rd raw))).res with e₂ | ⟨recs₂, lp₂, ctr₂⟩ <;>
        rw [hrest] at hres
      · cases hres
      · injection hres with h
        injection h with _ h
        injection h with h _
        exact h ▸ passLoop_lastPara_propagates gen p rd saveI total m _ _ _ _ _ _
          Option.isSome_some hrest

/-- **C10.** The effective pass count of any run started through the
public interface is at least 1: the default `custom_passes` is 1, every
UI settings mutation preserves positivity of `custom_passes` (the entry
handler only stores positive integers), every settings value reachable
from the defaults has a positive `custom_passes` and hence a positive
effective pass count, and whenever a chunk's pass loop runs at least one
pass the `paraphrases` value read by the version-append step after the
loop is defined. -/
theorem effective_passes_always_positive :
    defaultSettings.custom_passes = 1 ∧
    (∀ (op : SettingsOp) (s : Settings), 1 ≤ s.custom_passes →
      1 ≤ (applyOp op s).custom_passes) ∧
    (∀ ops : List SettingsOp, 1 ≤ (applyOps ops defaultSettings).custom_passes) ∧
    (∀ s : Settings, 1 ≤ s.custom_passes → 1 ≤ effectivePasses s) ∧
    (∀ ops : List SettingsOp, 1 ≤ effectivePasses (applyOps ops defaultSettings)) ∧
    (∀ (gen : GenFun) (p : GenParams) (rd saveI : Bool) (total n : Nat)
      (chunk : String) (ctr : Nat) (lp : Option Cand4) recs lp' ctr',
      1 ≤ n →
      (passLoop gen p rd saveI total n chunk ctr lp).res = .ok (recs, lp', ctr') →
      lp'.isSome = true) := by
  have hpos : ∀ s : Settings, 1 ≤ s.custom_passes → 1 ≤ effectivePasses s := by
    intro s h
    unfold effectivePasses
    split
    · exact h
    · cases s.strength <;> simp [passesFor]
  refine ⟨rfl, applyOp_custom_passes_pos, fun ops =>
    applyOps_custom_passes_pos ops defaultSettings (by norm_num [defaultSettings]),
    hpos, fun ops => hpos _ (applyOps_custom_passes_pos ops defaultSettings
      (by norm_num [defaultSettings])), ?_⟩
  intro gen p rd saveI total n chunk ctr lp recs lp' ctr' hn hres
  exact passLoop_ok_lastPara_isSome gen p rd saveI total n chunk ctr lp recs lp' ctr'
    hn hres

/-! ## C1: idempotence of the post-processor -/

/-- A whitespace-normal form: every whitespace character is a plain
space and no two whitespace characters are adjacent. -/
def tidy (l : List Char) : Prop :=
  (∀ c ∈ l, isPySpace c = true → c = ' ') ∧
    l.Chain' (fun a b => ¬(isPySpace a = true ∧ isPySpace b = true))

lemma head_dropWhile_false (q : Char → Bool) :
    ∀ (l : List Char) (c : Char), (l.dropWhile q).head? = some c → q c = false := by
  intro l
  induction l with
  | nil => intro c h; simp at h
  | cons a as ih =>
    intro c h
    rw [List.dropWhile_cons] at h
    by_cases ha : q a
    · rw [if_pos ha] at h; exact ih c h
    · rw [if_neg ha] at h
      injection h with h
      subst h
      simp at ha
      simp [ha]

lemma mem_of_mem_dropWhile (q : Char → Bool) :
    ∀ (l : List Char) (c : Char), c ∈ l.dropWhile q → c ∈ l := by
  intro l
  induction l with
  | nil => intro c h; simp at h
  | cons a as ih =>
    intro c h
    rw [List.dropWhile_cons] at h
    by_cases ha : q a
    · rw [if_pos ha] at h
      exact List.mem_cons_of_mem a (ih c h)
    · rwa [if_neg ha] at h

lemma chain'_dropWhile {R : Char → Char → Prop} (q : Char → Bool) :
    ∀ l : List Char, l.Chain' R → (l.dropWhile q).Chain' R := by
  intro l
  induction l with
  | nil => intro h; exact h
  | cons a as ih =>
    intro h
    rw [List.dropWhile_cons]
    by_cases ha : q a
    · rw [if_pos ha]
      exact ih (List.chain'_cons'.mp h).2
    · rwa [if_neg ha]

/-- The head of `collapseGo true l` (output emitted while inside a
whitespace run) is never whitespace. -/
lemma collapseGo_true_head :
    ∀ (l : List Char) (c : Char),
      (collapseGo true l).head? = some c → isPySpace c = false := by
  intro l
  induction l with
  | nil => intro c h; simp [collapseGo] at h
  | cons a as ih =>
    intro c h
    rw [collapseGo] at h
    by_cases ha : isPySpace a
    · rw [if_pos ha] at h; exact ih c h
    · rw [if_neg ha] at h
      injection h with h
      subst h
      simpa using ha

/-- The output of the whitespace-collapse scanner is in whitespace-normal
form, in both scanner states. -/
lemma tidy_collapseGo : ∀ l : List Char, tidy (collapseGo true l) ∧ tidy (collapseGo false l) := by
  intro l
  induction l with
  | nil => exact ⟨⟨by simp [collapseGo], by simp [collapseGo]⟩,
      ⟨by simp [collapseGo], by simp [collapseGo]⟩⟩
  | cons a as ih =>
    obtain ⟨⟨ihTm, ihTc⟩, ⟨ihFm, ihFc⟩⟩ := ih
    by_cases ha : isPySpace a
    · constructor
      · rw [collapseGo, if_pos ha]
        exact ⟨ihTm, ihTc⟩
      · rw [collapseGo, if_pos ha]
        refine ⟨?_, ?_⟩
        · intro c hc hsp
          rcases List.mem_cons.mp hc with rfl | hc
          · rfl
          · exact ihTm c hc hsp
        · refine List.chain'_cons'.mpr ⟨?_, ihTc⟩
          intro y hy hcon
          rw [collapseGo_true_head as y hy] at hcon
          exact Bool.false_ne_true hcon.2
    · have hstep : ∀ b, collapseGo b (a :: as) = a :: collapseGo false as := by
        intro b
        rw [collapseGo, if_neg ha]
      constructor <;> rw [hstep] <;> refine ⟨?_, ?_⟩ <;>
        first
        | (intro c hc hsp
           rcases List.mem_cons.mp hc with rfl | hc
           · exact absurd hsp (by simpa using ha)
           · exact ihFm c hc hsp)
        | (refine List.chain'_cons'.mpr ⟨?_, ihFc⟩
           intro y hy hcon
           exact ha (by simpa using hcon.1))

/-- On input already in whitespace-normal form, the collapse scanner is
the identity (in state `false` always; in state `true` when the head is
not whitespace). -/
lemma collapseGo_eq_of_tidy :
    ∀ l : List Char, tidy l →
      collapseGo false l = l ∧
      ((∀ c, l.head? = some c → isPySpace c = false) → collapseGo true l = l) := by
  intro l
  induction l with
  | nil => exact fun _ => ⟨rfl, fun _ => rfl⟩
  | cons a as ih =>
    intro ⟨hmem, hch⟩
    have hchTail := (List.chain'_cons'.mp hch).2
    have hchHead := (List.chain'_cons'.mp hch).1
    have htail : tidy as := ⟨fun c hc => hmem c (List.mem_cons_of_mem a hc), hchTail⟩
    obtain ⟨ihF, ihT⟩ := ih htail
    by_cases ha : isPySpace a
    · have haSp : a = ' ' := hmem a (List.mem_cons_self a as) ha
      have hasHead : ∀ c, as.head? = some c → isPySpace c = false := by
        intro c hc
        by_contra hcon
        exact hchHead c hc ⟨ha, by simpa using hcon⟩
      constructor
      · rw [collapseGo, if_pos ha, ihT hasHead, haSp]
        simp
      · intro hh
        have := hh a rfl
        rw [ha] at this
        cases this
    · constructor
      · rw [collapseGo, if_neg ha, ihF]
      · intro _
        rw [collapseGo, if_neg ha, ihF]

/-- Whitespace-normal form is preserved by `pyStrip`. -/
lemma tidy_pyStrip {l : List Char} (h : tidy l) : tidy (pyStrip l) := by
  obtain ⟨hmem, hch⟩ := h
  have symmR : ∀ (m : List Char),
      m.Chain' (fun a b => ¬(isPySpace a = true ∧ isPySpace b = true)) →
      m.reverse.Chain' (fun a b => ¬(isPySpace a = true ∧ isPySpace b = true)) := by
    intro m hm
    rw [List.chain'_reverse]
    exact hm.imp (fun a b hab hcon => hab ⟨hcon.2, hcon.1⟩)
  refine ⟨?_, ?_⟩
  · intro c hc hsp
    apply hmem c _ hsp
    have h1 := List.mem_reverse.mp hc
    have h2 := mem_of_mem_dropWhile isPySpace _ _ h1
    have h3 := List.mem_reverse.mp h2
    exact mem_of_mem_dropWhile isPySpace _ _ h3
  · exact symmR _ (chain'_dropWhile isPySpace _ (symmR _ (chain'_dropWhile isPySpace _ hch)))

lemma dropWhile_eq_self_of_head (q : Char → Bool) (l : List Char)
    (h : ∀ c, l.head? = some c → q c = false) : l.dropWhile q = l := by
  cases l with
  | nil => rfl
  | cons a as =>
    rw [List.dropWhile_cons, if_neg]
    simp [h a rfl]

/-- `pyStrip` is idempotent. -/
lemma pyStrip_pyStrip (l : List Char) : pyStrip (pyStrip l) = pyStrip l := by
  have keyD : ∀ m : List Char,
      (pyStrip m).dropWhile isPySpace = pyStrip m := by
    intro m
    rcases hD : m.dropWhile isPySpace with _ | ⟨c, ys⟩
    · simp [pyStrip, hD]
    · have hc : isPySpace c = false := head_dropWhile_false isPySpace m c (by rw [hD]; rfl)
      have : pyStrip m = ((c :: ys).reverse.dropWhile isPySpace).reverse := by
        rw [pyStrip, hD]
      rw [this, List.reverse_cons, List.dropWhile_append]
      split
      · rw [List.dropWhile_cons]
        simp only [hc, Bool.false_eq_true, if_false, List.dropWhile_nil,
          List.reverse_cons, List.reverse_nil, List.nil_append]
        rw [List.dropWhile_cons]
        simp [hc]
      · rw [List.reverse_append, List.reverse_cons, List.reverse_nil, List.nil_append,
          List.singleton_append, List.dropWhile_cons]
        simp [hc]
  have : pyStrip (pyStrip l) =
      (((pyStrip l).dropWhile isPySpace).reverse.dropWhile isPySpace).reverse := rfl
  rw [this, keyD l]
  rw [pyStrip]
  rw [List.reverse_reverse, List.dropWhile_idempotent]

/-- **C1, counterexample.** The post-processor is not idempotent for
every string and settings value: with `removeDashes` set, the input
`"a,,,b"` normalizes to `"a, , b"`, which normalizes again to `"a, b"`
(the double-comma collapse only removes one comma of a triple, and the
comma-spacing pass then separates the remaining pair so that a second
application finds a new double comma). -/
theorem humanize_idempotence_counterexample :
    humanize_output true (humanize_output true "a,,,b") ≠
      humanize_output true "a,,,b" := by decide

/-- **C1, amended.** The post-processor is idempotent when
`removeDashes` is false (whitespace collapse followed by strip is
idempotent); with `removeDashes` set it is not idempotent in general
(see the counterexample). -/
theorem humanize_idempotent_amended (s : String) :
    humanize_output false (humanize_output false s) = humanize_output false s := by
  show String.mk (pyStrip (collapseGo false (String.mk
      (pyStrip (collapseGo false s.data))).data)) =
    String.mk (pyStrip (collapseGo false s.data))
  have hdata : (String.mk (pyStrip (collapseGo false s.data))).data =
      pyStrip (collapseGo false s.data) := rfl
  rw [hdata]
  have h1 : tidy (collapseGo false s.data) := (tidy_collapseGo s.data).2
  have h2 : tidy (pyStrip (collapseGo false s.data)) := tidy_pyStrip h1
  rw [(collapseGo_eq_of_tidy _ h2).1, pyStrip_pyStrip]

/-! ## C6 and C7: chunker properties -/

lemma joinSp_cons_ne (s : String) (rest : List String) (h : rest ≠ []) :
    joinSp (s :: rest) = s ++ " " ++ joinSp rest := by
  cases rest with
  | nil => exact absurd rfl h
  | cons y ys => rfl

lemma joinSp_append (a b : List String) (ha : a ≠ []) (hb : b ≠ []) :
    joinSp (a ++ b) = joinSp a ++ " " ++ joinSp b := by
  induction a with
  | nil => exact absurd rfl ha
  | cons x xs ih =>
    cases xs with
    | nil =>
      rw [List.singleton_append, joinSp_cons_ne x b hb]
      rfl
    | cons y ys =>
      have hne : (y :: ys) ++ b ≠ [] := by simp
      rw [List.cons_append, joinSp_cons_ne x ((y :: ys) ++ b) hne,
        ih (by simp), joinSp_cons_ne x (y :: ys) (by simp)]
      simp [String.append_assoc]

lemma joinSp_map_flatten (gs : List (List String)) (h : ∀ g ∈ gs, g ≠ []) :
    joinSp (gs.map joinSp) = joinSp gs.flatten := by
  induction gs with
  | nil => rfl
  | cons g rest ih =>
    cases rest with
    | nil => simp [joinSp]
    | cons r rs =>
      have hg : g ≠ [] := h g (List.mem_cons_self g _)
      have hr : r ≠ [] := h r (List.mem_cons_of_mem _ (List.mem_cons_self r _))
      have hflat : (r :: rs).flatten ≠ [] := by
        rw [List.flatten_cons]
        intro hcon
        exact hr (List.append_eq_nil.mp hcon).1
      rw [List.map_cons, joinSp_cons_ne _ _ (by simp), List.flatten_cons,
        joinSp_append g (r :: rs).flatten hg hflat,
        ih (fun x hx => h x (List.mem_cons_of_mem _ hx))]

lemma joinSp_ne_empty (g : List String) (hg : g ≠ []) (hx : ∀ x ∈ g, x ≠ "") :
    joinSp g ≠ "" := by
  cases g with
  | nil => exact absurd rfl hg
  | cons x xs =>
    cases xs with
    | nil => exact hx x (List.mem_cons_self x _)
    | cons y ys =>
      intro hcon
      have hd := congrArg String.data hcon
      rw [joinSp_cons_ne x (y :: ys) (by simp)] at hd
      simp only [String.data_append] at hd
      simp at hd

lemma sentencesOf_ne_empty (text : String) : ∀ s ∈ sentencesOf text, s ≠ "" := by
  intro s hs
  simp only [sentencesOf, List.mem_map, List.mem_filter] at hs
  obtain ⟨l, ⟨_, hne⟩, rfl⟩ := hs
  intro hcon
  have hl : l = [] := congrArg String.data hcon
  rw [hl] at hne
  simp at hne

/-- Under a token counter for which no remaining sentence is oversized,
the packing loop emits non-empty sentence groups whose concatenation is
the pending group followed by the remaining sentences. -/
lemma packLoop_groups (tok : String → Nat) :
    ∀ (sents cur : List String) (curTok : Nat),
      (∀ s ∈ sents, tok (taskPrefix ++ s) ≤ 60) →
      (cur = [] → curTok = 0) →
      (∀ g ∈ packLoop tok sents cur curTok, g ≠ []) ∧
        (packLoop tok sents cur curTok).flatten = cur ++ sents := by
  intro sents
  induction sents with
  | nil =>
    intro cur curTok _ _
    rw [packLoop]
    by_cases hc : cur.isEmpty
    · rw [if_pos hc, List.isEmpty_iff.mp hc]
      exact ⟨by simp, rfl⟩
    · rw [if_neg hc]
      refine ⟨?_, by simp⟩
      intro g hg
      rw [List.mem_singleton.mp hg]
      simpa using hc
  | cons s rest ih =>
    intro cur curTok hsent hcur
    have hs : tok (taskPrefix ++ s) ≤ 60 :=
      hsent s (List.mem_cons_self s rest)
    have hrest : ∀ x ∈ rest, tok (taskPrefix ++ x) ≤ 60 :=
      fun x hx => hsent x (List.mem_cons_of_mem _ hx)
    rw [packLoop]
    rw [if_neg (by omega)]
    by_cases hb : curTok + tok (taskPrefix ++ s) > 60
    · rw [if_pos hb]
      have hcne : cur ≠ [] := by
        intro h
        rw [hcur h] at hb
        omega
      obtain ⟨ihg, ihf⟩ := ih [s] (tok (taskPrefix ++ s)) hrest (by intro h; cases h)
      constructor
      · intro g hg
        rcases List.mem_append.mp hg with hg | hg
        · rw [List.mem_singleton.mp hg]; exact hcne
        · exact ihg g hg
      · rw [List.singleton_append, List.flatten_cons, ihf, List.singleton_append]
    · rw [if_neg hb]
      obtain ⟨ihg, ihf⟩ := ih (cur ++ [s]) (curTok + tok (taskPrefix ++ s)) hrest
        (by intro h; simp at h)
      refine ⟨ihg, ?_⟩
      rw [ihf, List.append_assoc, List.singleton_append]

/-- **C6, counterexample.** The chunker can return an empty chunk: with
a token counter that declares every sentence oversized, the input
`", a"` comma-splits into the parts `""` and `"a"`, and the empty part
is emitted as a chunk. -/
theorem chunker_empty_chunk_counterexample :
    "" ∈ split_into_chunks (fun _ => 61) ", a" := by decide

/-- **C6, amended.** For every input text and token counter under which
no sentence exceeds the 60-token budget (so the oversized-sentence
comma-split path is never taken), the chunker returns only non-empty
chunks, in input order, and their space-joined concatenation equals the
space-joined concatenation of the input's sentences; an oversized
sentence's comma-split parts, by contrast, may be empty (see the
counterexample). -/
theorem chunker_nonempty_ordered_amended (tok : String → Nat) (text : String)
    (h : ∀ s ∈ sentencesOf text, tok (taskPrefix ++ s) ≤ 60) :
    (∀ c ∈ split_into_chunks tok text, c ≠ "") ∧
      joinSp (split_into_chunks tok text) = joinSp (sentencesOf text) := by
  obtain ⟨hg, hf⟩ := packLoop_groups tok (sentencesOf text) [] 0 h (fun _ => rfl)
  constructor
  · intro c hc
    rw [split_into_chunks] at hc
    obtain ⟨g, hgmem, rfl⟩ := List.mem_map.mp hc
    refine joinSp_ne_empty g (hg g hgmem) ?_
    intro x hx
    have hxf : x ∈ (packLoop tok (sentencesOf text) [] 0).flatten :=
      List.mem_flatten.mpr ⟨g, hgmem, hx⟩
    rw [hf, List.nil_append] at hxf
    exact sentencesOf_ne_empty text x hxf
  · rw [split_into_chunks, joinSp_map_flatten _ hg, hf, List.nil_append]

/-- Witness for the amended C6 theorem at a concrete input. -/
theorem chunker_nonempty_ordered_amended_witness :
    (∀ c ∈ split_into_chunks (fun _ => 1) "Hi. Yo.", c ≠ "") ∧
      joinSp (split_into_chunks (fun _ => 1) "Hi. Yo.") =
        joinSp (sentencesOf "Hi. Yo.") :=
  chunker_nonempty_ordered_amended (fun _ => 1) "Hi. Yo." (by decide)

/-- The per-sentence prefixed token count summed over a group. -/
def sumTok (tok : String → Nat) (g : List String) : Nat :=
  (g.map (fun s => tok (taskPrefix ++ s))).sum

/-- The packing loop's budget invariant: the quantity kept under 60 is
the *sum* of the per-sentence prefixed token counts of each group. -/
lemma packLoop_sums (tok : String → Nat) :
    ∀ (sents cur : List String) (curTok : Nat),
      (∀ s ∈ sents, tok (taskPrefix ++ s) ≤ 60) →
      curTok = sumTok tok cur → curTok ≤ 60 →
      ∀ g ∈ packLoop tok sents cur curTok, sumTok tok g ≤ 60 := by
  intro sents
  induction sents with
  | nil =>
    intro cur curTok _ hsum hbound g hg
    rw [packLoop] at hg
    by_cases hc : cur.isEmpty
    · rw [if_pos hc] at hg
      simp at hg
    · rw [if_neg hc] at hg
      rw [List.mem_singleton.mp hg, ← hsum]
      exact hbound
  | cons s rest ih =>
    intro cur curTok hsent hsum hbound g hg
    have hs : tok (taskPrefix ++ s) ≤ 60 :=
      hsent s (List.mem_cons_self s rest)
    have hrest : ∀ x ∈ rest, tok (taskPrefix ++ x) ≤ 60 :=
      fun x hx => hsent x (List.mem_cons_of_mem _ hx)
    rw [packLoop] at hg
    rw [if_neg (by omega)] at hg
    by_cases hb : curTok + tok (taskPrefix ++ s) > 60
    · rw [if_pos hb] at hg
      rcases List.mem_append.mp hg with hg | hg
      · rw [List.mem_singleton.mp hg, ← hsum]
        exact hbound
      · refine ih [s] (tok (taskPrefix ++ s)) hrest ?_ hs g hg
        simp [sumTok]
    · rw [if_neg hb] at hg
      refine ih (cur ++ [s]) (curTok + tok (taskPrefix ++ s)) hrest ?_ (by omega) g hg
      rw [hsum, sumTok, sumTok, List.map_append, List.sum_append]
      simp

/-- The token counter used by the C7 counterexample: every string counts
1 token except the joined two-sentence chunk, which counts 61. -/
def tok7 : String → Nat :=
  fun s => if s = "paraphraser: a. b." then 61 else 1

/-- **C7, counterexample.** A chunk produced by greedy sentence packing
need not satisfy `tok (prefix ++ chunk) ≤ 60`: the loop bounds the sum
of the per-sentence prefixed counts, never re-counting the joined chunk
text, so a counter that charges more for the joined text than for the
sum of its sentences breaks the stated bound. -/
theorem chunk_budget_counterexample :
    split_into_chunks tok7 "a. b." = ["a. b."] ∧
      ¬(∀ c ∈ split_into_chunks tok7 "a. b.", tok7 (taskPrefix ++ c) ≤ 60) := by
  constructor
  · decide
  · decide

/-- **C7, amended.** Every chunk produced by greedy sentence packing
keeps the *sum* of `tok (prefix ++ sentence)` over its sentences within
the 60-token budget; the stated bound on the joined chunk text follows
for token counters that are sub-additive across space-joins (provided no
single sentence is oversized, so that all chunks come from packing). -/
theorem chunk_budget_amended (tok : String → Nat) (text : String)
    (hsent : ∀ s ∈ sentencesOf text, tok (taskPrefix ++ s) ≤ 60)
    (hsub : ∀ a b : String,
      tok (taskPrefix ++ (a ++ " " ++ b)) ≤
        tok (taskPrefix ++ a) + tok (taskPrefix ++ b)) :
    ∀ c ∈ split_into_chunks tok text, tok (taskPrefix ++ c) ≤ 60 := by
  have joinBound : ∀ g : List String, g ≠ [] →
      tok (taskPrefix ++ joinSp g) ≤ sumTok tok g := by
    intro g
    induction g with
    | nil => intro h; exact absurd rfl h
    | cons x xs ih =>
      intro _
      cases xs with
      | nil => simp [joinSp, sumTok]
      | cons y ys =>
        rw [joinSp_cons_ne x (y :: ys) (by simp)]
        calc tok (taskPrefix ++ (x ++ " " ++ joinSp (y :: ys)))
            ≤ tok (taskPrefix ++ x) + tok (taskPrefix ++ joinSp (y :: ys)) :=
              hsub x (joinSp (y :: ys))
          _ ≤ tok (taskPrefix ++ x) + sumTok tok (y :: ys) := by
              have := ih (by simp)
              omega
          _ = sumTok tok (x :: y :: ys) := by simp [sumTok]
  intro c hc
  rw [split_into_chunks] at hc
  obtain ⟨g, hgmem, rfl⟩ := List.mem_map.mp hc
  have hgne : g ≠ [] :=
    (packLoop_groups tok (sentencesOf text) [] 0 hsent (fun _ => rfl)).1 g hgmem
  calc tok (taskPrefix ++ joinSp g) ≤ sumTok tok g := joinBound g hgne
    _ ≤ 60 := packLoop_sums tok (sentencesOf text) [] 0 hsent rfl (by omega) g hgmem

/-- Witness for the amended C7 theorem: with the length counter (which
is sub-additive across joins), the single packed chunk of `"Hi. Yo."`
meets the budget. -/
theorem chunk_budget_amended_witness :
    (fun s : String => s.length) (taskPrefix ++ "Hi. Yo.") ≤ 60 :=
  chunk_budget_amended (fun s => s.length) "Hi. Yo." (by decide)
    (fun a b => by
      simp only [String.length_append]
      have h1 : (" " : String).length = 1 := rfl
      have h2 : taskPrefix.length = 13 := rfl
      omega) "Hi. Yo." (by decide)

/-! ## C3, C4, C5, C8: the pass/chunk loop trace -/

/-- The per-unit progress events emitted by `n` consecutive (chunk,
pass) units starting at counter value `c`. -/
def evSeq (total : Nat) : Nat → Nat → List Ev
  | _, 0 => []
  | c, n + 1 =>
    (c, total, "Processing chunk " ++ toString (c + 1) ++ "/" ++ toString total) ::
      evSeq total (c + 1) n

lemma evSeq_add (total : Nat) :
    ∀ (a c b : Nat), evSeq total c (a + b) = evSeq total c a ++ evSeq total (c + a) b := by
  intro a
  induction a with
  | zero => intro c b; simp [evSeq]
  | succ a ih =>
    intro c b
    rw [Nat.succ_add, evSeq, evSeq, ih (c + 1) b, List.cons_append]
    have h : c + 1 + a = c + (a + 1) := by omega
    rw [h]

lemma evSeq_map_fst (total : Nat) :
    ∀ (n c : Nat), (evSeq total c n).map (fun e => e.1) = List.range' c n := by
  intro n
  induction n with
  | zero => intro c; rfl
  | succ n ih => intro c; rw [evSeq, List.map_cons, ih (c + 1), List.range'_succ]

lemma evSeq_total (total : Nat) :
    ∀ (n c : Nat), ∀ e ∈ evSeq total c n, e.2.1 = total := by
  intro n
  induction n with
  | zero => intro c e he; simp [evSeq] at he
  | succ n ih =>
    intro c e he
    rw [evSeq] at he
    rcases List.mem_cons.mp he with rfl | he
    · rfl
    · exact ih (c + 1) e he

section PassLoopLemmas

variable (gen : GenFun) (p : GenParams) (rd saveI : Bool) (total : Nat)

/-- One progress event is emitted per generation call, with consecutive
counter values — on successful and failing traces alike. -/
lemma passLoop_events_calls :
    ∀ (n : Nat) (s : String) (ctr : Nat) (lp : Option Cand4),
      (passLoop gen p rd saveI total n s ctr lp).events =
        evSeq total ctr (passLoop gen p rd saveI total n s ctr lp).calls.length := by
  intro n
  induction n with
  | zero => intro s ctr lp; rfl
  | succ m ih =>
    intro s ctr lp
    rw [passLoop]
    rcases hg : gen p (taskPrefix ++ s) with e | raw
    · rfl
    · dsimp only
      rw [List.length_cons, evSeq, ih]

/-- On success the pass loop makes exactly one call per pass and leaves
the counter advanced by the number of passes. -/
lemma passLoop_ok_calls_ctr :
    ∀ (n : Nat) (s : String) (ctr : Nat) (lp : Option Cand4) recs lp' ctr',
      (passLoop gen p rd saveI total n s ctr lp).res = .ok (recs, lp', ctr') →
      (passLoop gen p rd saveI total n s ctr lp).calls.length = n ∧ ctr' = ctr + n := by
  intro n
  induction n with
  | zero =>
    intro s ctr lp recs lp' ctr' hres
    rw [passLoop] at hres
    injection hres with h
    injection h with _ h
    injection h with _ h
    exact ⟨rfl, by omega⟩
  | succ m ih =>
    intro s ctr lp recs lp' ctr' hres
    rw [passLoop] at hres ⊢
    rcases hg : gen p (taskPrefix ++ s) with e | raw <;> rw [hg] at hres
    · cases hres
    · dsimp only at hres ⊢
      rcases hrest : (passLoop gen p rd saveI total m
          (if 0 < m then (humanizeCand rd raw).c0 else s) (ctr + 1)
          (some (humanizeCand rd raw))).res with e₂ | ⟨recs₂, lp₂, ctr₂⟩ <;>
        rw [hrest] at hres
      · cases hres
      · injection hres with h
        injection h with _ h
        injection h with _ h
        obtain ⟨hlen, hctr⟩ := ih _ _ _ _ _ _ hrest
        rw [List.length_cons, hlen]
        omega

/-- With `save_intermediate` on, the pass loop records one 4-candidate
tuple per pass. -/
lemma passLoop_ok_recs_length :
    ∀ (n : Nat) (s : String) (ctr : Nat) (lp : Option Cand4) recs lp' ctr',
      (passLoop gen p rd true total n s ctr lp).res = .ok (recs, lp', ctr') →
      recs.length = n := by
  intro n
  induction n with
  | zero =>
    intro s ctr lp recs lp' ctr' hres
    rw [passLoop] at hres
    injection hres with h
    injection h with h _
    rw [← h]
    rfl
  | succ m ih =>
    intro s ctr lp recs lp' ctr' hres
    rw [passLoop] at hres
    rcases hg : gen p (taskPrefix ++ s) with e | raw <;> rw [hg] at hres
    · cases hres
    · dsimp only at hres
      rcases hrest : (passLoop gen p rd true total m
          (if 0 < m then (humanizeCand rd raw).c0 else s) (ctr + 1)
          (some (humanizeCand rd raw))).res with e₂ | ⟨recs₂, lp₂, ctr₂⟩ <;>
        rw [hrest] at hres
      · cases hres
      · injection hres with h
        injection h with h _
        rw [← h, if_pos rfl, List.length_cons, ih _ _ _ _ _ _ hrest]

/-- The first call of a non-trivial pass loop carries the prefixed
working text it was started on. -/
lemma passLoop_calls_head (n : Nat) (s : String) (ctr : Nat) (lp : Option Cand4)
    (hn : 0 < n) :
    (passLoop gen p rd saveI total n s ctr lp).calls[0]? =
      some (p, taskPrefix ++ s) := by
  rcases n with _ | m
  · omega
  · rw [passLoop]
    rcases hg : gen p (taskPrefix ++ s) with e | raw
    · rfl
    · dsimp only
      rw [List.getElem?_cons_zero]

/-- With `save_intermediate` on and at least one pass, the `paraphrases`
value left by the loop is the last recorded 4-candidate tuple. -/
lemma passLoop_ok_lastPara :
    ∀ (n : Nat) (s : String) (ctr : Nat) (lp : Option Cand4) recs lp' ctr',
      0 < n →
      (passLoop gen p rd true total n s ctr lp).res = .ok (recs, lp', ctr') →
      recs.getLast? = lp' := by
  intro n
  induction n with
  | zero => intro s ctr lp recs lp' ctr' hn; omega
  | succ m ih =>
    intro s ctr lp recs lp' ctr' _ hres
    rw [passLoop] at hres
    rcases hg : gen p (taskPrefix ++ s) with e | raw <;> rw [hg] at hres
    · cases hres
    · dsimp only at hres
      rcases hrest : (passLoop gen p rd true total m
          (if 0 < m then (humanizeCand rd raw).c0 else s) (ctr + 1)
          (some (humanizeCand rd raw))).res with e₂ | ⟨recs₂, lp₂, ctr₂⟩ <;>
        rw [hrest] at hres
      · cases hres
      · injection hres with h
        injection h with h1 h
        injection h with h2 _
        rw [← h1, ← h2, if_pos rfl]
        rcases m with _ | m'
        · rw [passLoop] at hrest
          injection hrest with h
          injection h with h3 h
          injection h with h4 _
          rw [← h3, ← h4]
          rfl
        · have hlen := passLoop_ok_recs_length gen p rd total _ _ _ _ _ _ _ hrest
          rcases recs₂ with _ | ⟨x, xs⟩
          · simp at hlen
          · rw [List.getLast?_cons_cons]
            exact ih _ _ _ _ _ _ (by omega) hrest

/-- On a failing trace the last call made is the one the Generation
Client rejected, with the raised message — there is no retry. -/
lemma passLoop_error_lastCall :
    ∀ (n : Nat) (s : String) (ctr : Nat) (lp : Option Cand4) (e : String),
      (passLoop gen p rd saveI total n s ctr lp).res = .error e →
      ∃ c, (passLoop gen p rd saveI total n s ctr lp).calls.getLast? = some c ∧
        gen c.1 c.2 = .error e := by
  intro n
  induction n with
  | zero => intro s ctr lp e hres; cases hres
  | succ m ih =>
    intro s ctr lp e hres
    rw [passLoop] at hres ⊢
    rcases hg : gen p (taskPrefix ++ s) with e' | raw <;> rw [hg] at hres
    · injection hres with h
      refine ⟨(p, taskPrefix ++ s), rfl, ?_⟩
      rw [hg, h]
    · dsimp only at hres ⊢
      rcases hrest : (passLoop gen p rd saveI total m
          (if 0 < m then (humanizeCand rd raw).c0 else s) (ctr + 1)
          (some (humanizeCand rd raw))).res with e₂ | ⟨recs₂, lp₂, ctr₂⟩ <;>
        rw [hrest] at hres
      · injection hres with h
        subst h
        obtain ⟨c, hc, hgen⟩ := ih _ _ _ _ hrest
        refine ⟨c, ?_, hgen⟩
        have hne : (passLoop gen p rd saveI total m
            (if 0 < m then (humanizeCand rd raw).c0 else s) (ctr + 1)
            (some (humanizeCand rd raw))).calls ≠ [] := by
          intro hnil
          rw [hnil] at hc
          cases hc
        rw [← List.singleton_append, List.getLast?_append, hc]
        rfl
      · cases hres

end PassLoopLemmas

section ChunkLoopLemmas

variable (gen : GenFun) (p : GenParams) (rd saveI : Bool) (total passes : Nat)

/-- Across the whole chunk loop, one progress event is emitted per
generation call, with consecutive counter values — on successful and
failing runs alike. -/
lemma chunkLoop_events_calls :
    ∀ (chunks : List String) (ctr : Nat) (lp : Option Cand4)
      (inter : List ChunkData) (vers : Versions),
      (chunkLoop gen p rd saveI total passes chunks ctr lp inter vers).1 =
        evSeq total ctr
          (chunkLoop gen p rd saveI total passes chunks ctr lp inter vers).2.1.length := by
  intro chunks
  induction chunks with
  | nil => intro ctr lp inter vers; rfl
  | cons chunk rest ih =>
    intro ctr lp inter vers
    simp only [chunkLoop]
    rcases hres : (passLoop gen p rd saveI total passes chunk ctr lp).res with
      e | ⟨recs, lp', ctr'⟩
    · exact passLoop_events_calls gen p rd saveI total passes chunk ctr lp
    · rcases lp' with _ | para
      · exact passLoop_events_calls gen p rd saveI total passes chunk ctr lp
      · dsimp only
        obtain ⟨hlen, hctr⟩ :=
          passLoop_ok_calls_ctr gen p rd saveI total passes chunk ctr lp _ _ _ hres
        rw [List.length_append, passLoop_events_calls gen p rd saveI total passes chunk ctr lp,
          ih _ _ _ _, evSeq_add total, hlen, ← hctr]

/-- On a successful run the chunk loop makes exactly
`chunks × passes` calls and advances the counter by that amount. -/
lemma chunkLoop_ok_calls_ctr (hpass : 0 < passes) :
    ∀ (chunks : List String) (ctr : Nat) (lp : Option Cand4)
      (inter : List ChunkData) (vers : Versions) evs calls interF versF ctrF,
      chunkLoop gen p rd saveI total passes chunks ctr lp inter vers =
        (evs, calls, interF, .ok (versF, ctrF)) →
      calls.length = chunks.length * passes ∧ ctrF = ctr + chunks.length * passes := by
  intro chunks
  induction chunks with
  | nil =>
    intro ctr lp inter vers evs calls interF versF ctrF h
    rw [chunkLoop] at h
    injection h with h1 h
    injection h with h2 h
    injection h with h3 h4
    injection h4 with h5
    injection h5 with _ h6
    rw [← h2]
    simp [← h6]
  | cons chunk rest ih =>
    intro ctr lp inter vers evs calls interF versF ctrF h
    simp only [chunkLoop] at h
    rcases hres : (passLoop gen p rd saveI total passes chunk ctr lp).res with
      e | ⟨recs, lp', ctr'⟩ <;> rw [hres] at h
    · injection h with _ h
      injection h with _ h
      injection h with _ h4
      cases h4
    · have hsome := passLoop_ok_lastPara_isSome gen p rd saveI total passes chunk ctr lp
        _ _ _ hpass hres
      rcases lp' with _ | para
      · cases hsome
      · dsimp only at h
        injection h with _ h
        injection h with hcalls h
        injection h with _ h4
        obtain ⟨hlen, hctr⟩ :=
          passLoop_ok_calls_ctr gen p rd saveI total passes chunk ctr lp _ _ _ hres
        obtain ⟨houtlen, houtctr⟩ := ih ctr' (some para)
          (if saveI then inter ++ [(chunk, recs)] else inter)
          (appendVers vers para) _ _ _ versF ctrF (by rw [← h4])
        have hmul : (chunk :: rest).length * passes = passes + rest.length * passes := by
          rw [List.length_cons, Nat.succ_mul, Nat.add_comm]
        rw [← hcalls, List.length_append, hlen, houtlen, hmul]
        exact ⟨rfl, by omega⟩

/-- Successful-run shape of the chunk loop (with `save_intermediate`
on): there is one final 4-candidate tuple per chunk; each version list
is extended by that chunk's final candidate of its index; the
intermediate store gains one `(original, records)` pair per chunk, in
chunk order, with one record per pass, the last record being exactly the
final tuple used for version assembly. -/
lemma chunkLoop_ok_spec (hpass : 0 < passes) :
    ∀ (chunks : List String) (ctr : Nat) (lp : Option Cand4)
      (inter : List ChunkData) (vers : Versions) evs calls interF versF ctrF,
      chunkLoop gen p rd true total passes chunks ctr lp inter vers =
        (evs, calls, interF, .ok (versF, ctrF)) →
      ∃ (finals : List Cand4) (pairs : List ChunkData),
        finals.length = chunks.length ∧
        versF.v0 = vers.v0 ++ finals.map (fun f => f.c0) ∧
        versF.v1 = vers.v1 ++ finals.map (fun f => f.c1) ∧
        versF.v2 = vers.v2 ++ finals.map (fun f => f.c2) ∧
        versF.v3 = vers.v3 ++ finals.map (fun f => f.c3) ∧
        interF = inter ++ pairs ∧
        pairs.map Prod.fst = chunks ∧
        (∀ cd ∈ pairs, cd.2.length = passes) ∧
        List.Forall₂ (fun (cd : ChunkData) (f : Cand4) => cd.2.getLast? = some f)
          pairs finals := by
  intro chunks
  induction chunks with
  | nil =>
    intro ctr lp inter vers evs calls interF versF ctrF h
    rw [chunkLoop] at h
    injection h with _ h
    injection h with _ h
    injection h with h3 h4
    injection h4 with h5
    injection h5 with h6 _
    refine ⟨[], [], rfl, ?_, ?_, ?_, ?_, ?_, rfl, ?_, List.Forall₂.nil⟩ <;>
      simp [← h6, ← h3]
  | cons chunk rest ih =>
    intro ctr lp inter vers evs calls interF versF ctrF h
    simp only [chunkLoop] at h
    rcases hres : (passLoop gen p rd true total passes chunk ctr lp).res with
      e | ⟨recs, lp', ctr'⟩ <;> rw [hres] at h
    · injection h with _ h
      injection h with _ h
      injection h with _ h4
      cases h4
    · have hsome := passLoop_ok_lastPara_isSome gen p rd true total passes chunk ctr lp
        _ _ _ hpass hres
      rcases lp' with _ | para
      · cases hsome
      · dsimp only at h
        rw [if_true] at h
        injection h with _ h
        injection h with _ h
        injection h with h3 h4
        obtain ⟨finals, pairs, hflen, hv0, hv1, hv2, hv3, hinter, hfst, hcd, hfa⟩ :=
          ih ctr' (some para) (inter ++ [(chunk, recs)]) (appendVers vers para)
            _ _ _ versF ctrF (by rw [← h4])
        have hreclen := passLoop_ok_recs_length gen p rd total passes chunk ctr lp
          _ _ _ hres
        have hlast := passLoop_ok_lastPara gen p rd total passes chunk ctr lp
          _ _ _ hpass hres
        refine ⟨para :: finals, (chunk, recs) :: pairs, ?_, ?_, ?_, ?_, ?_, ?_, ?_, ?_, ?_⟩
        · simp [hflen]
        · rw [hv0, appendVers, List.map_cons, List.append_assoc, List.singleton_append]
        · rw [hv1, appendVers, List.map_cons, List.append_assoc, List.singleton_append]
        · rw [hv2, appendVers, List.map_cons, List.append_assoc, List.singleton_append]
        · rw [hv3, appendVers, List.map_cons, List.append_assoc, List.singleton_append]
        · rw [← h3, hinter, List.append_assoc, List.singleton_append]
        · rw [List.map_cons, hfst]
        · intro cd hcd'
          rcases List.mem_cons.mp hcd' with rfl | hcd'
          · exact hreclen
          · exact hcd cd hcd'
        · exact List.Forall₂.cons hlast hfa

/-- Failing-run shape of the chunk loop (with `save_intermediate` on):
the last call made is the one the Generation Client rejected, and the
intermediate store has gained exactly the records of the chunks fully
processed before the failure, in order, one record per pass. -/
lemma chunkLoop_error_spec (hpass : 0 < passes) :
    ∀ (chunks : List String) (ctr : Nat) (lp : Option Cand4)
      (inter : List ChunkData) (vers : Versions) evs calls interF e,
      chunkLoop gen p rd true total passes chunks ctr lp inter vers =
        (evs, calls, interF, .error e) →
      (∃ c, calls.getLast? = some c ∧ gen c.1 c.2 = .error e) ∧
      ∃ (pairs : List ChunkData) (k : Nat),
        interF = inter ++ pairs ∧
        pairs.map Prod.fst = chunks.take k ∧
        k < chunks.length ∧ pairs.length = k ∧
        (∀ cd ∈ pairs, cd.2.length = passes) := by
  intro chunks
  induction chunks with
  | nil =>
    intro ctr lp inter vers evs calls interF e h
    rw [chunkLoop] at h
    injection h with _ h
    injection h with _ h
    injection h with _ h4
    cases h4
  | cons chunk rest ih =>
    intro ctr lp inter vers evs calls interF e h
    simp only [chunkLoop] at h
    rcases hres : (passLoop gen p rd true total passes chunk ctr lp).res with
      e' | ⟨recs, lp', ctr'⟩ <;> rw [hres] at h
    · injection h with _ h
      injection h with h2 h
      injection h with h3 h4
      injection h4 with h5
      constructor
      · rw [← h2]
        have := passLoop_error_lastCall gen p rd true total passes chunk ctr lp e
          (by rw [hres, h5])
        exact this
      · exact ⟨[], 0, by rw [← h3]; simp, rfl, by simp, rfl, by simp⟩
    · have hsome := passLoop_ok_lastPara_isSome gen p rd true total passes chunk ctr lp
        _ _ _ hpass hres
      rcases lp' with _ | para
      · cases hsome
      · dsimp only at h
        rw [if_true] at h
        injection h with _ h
        injection h with h2 h
        injection h with h3 h4
        obtain ⟨⟨c, hc, hgen⟩, pairs, k, hinter, hfst, hk, hklen, hcd⟩ :=
          ih ctr' (some para) (inter ++ [(chunk, recs)]) (appendVers vers para)
            _ _ _ e (by rw [← h4])
        have hreclen := passLoop_ok_recs_length gen p rd total passes chunk ctr lp
          _ _ _ hres
        constructor
        · refine ⟨c, ?_, hgen⟩
          rw [← h2, List.getLast?_append, hc]
          rfl
        · refine ⟨(chunk, recs) :: pairs, k + 1, ?_, ?_, ?_, ?_, ?_⟩
          · rw [← h3, hinter, List.append_assoc, List.singleton_append]
          · rw [List.map_cons, hfst, List.take_succ_cons]
          · simpa using hk
          · simp [hklen]
          · intro cd hcd'
            rcases List.mem_cons.mp hcd' with rfl | hcd'
            · exact hreclen
            · exact hcd cd hcd'

end ChunkLoopLemmas

/-- **C3.** Within a chunk's pass loop, for every pass index `k` with
`k + 1 < passes`, the text sent to the Generation Client at pass `k + 1`
is exactly the task prefix `"paraphraser: "` followed by candidate 0 of
the post-processed record of pass `k` — the candidate string feeds the
next pass verbatim, with no re-chunking or other modification. -/
theorem pass_chaining (gen : GenFun) (p : GenParams) (rd : Bool) (total : Nat) :
    ∀ (n : Nat) (chunk : String) (ctr : Nat) (lp : Option Cand4)
      (recs : List Cand4) (lp' : Option Cand4) (ctr' : Nat) (k : Nat),
      (passLoop gen p rd true total n chunk ctr lp).res = .ok (recs, lp', ctr') →
      k + 1 < n →
      ((passLoop gen p rd true total n chunk ctr lp).calls.map (fun c => c.2))[k + 1]? =
        (recs[k]?).map (fun r => taskPrefix ++ r.c0) := by
  intro n
  induction n with
  | zero => intro chunk ctr lp recs lp' ctr' k _ hk; omega
  | succ m ih =>
    intro chunk ctr lp recs lp' ctr' k hres hk
    rw [passLoop] at hres ⊢
    rcases hg : gen p (taskPrefix ++ chunk) with e | raw <;> rw [hg] at hres
    · cases hres
    · dsimp only at hres ⊢
      rcases hrest : (passLoop gen p rd true total m
          (if 0 < m then (humanizeCand rd raw).c0 else chunk) (ctr + 1)
          (some (humanizeCand rd raw))).res with e₂ | ⟨recs₂, lp₂, ctr₂⟩ <;>
        rw [hrest] at hres
      · cases hres
      · injection hres with h
        injection h with h1 h
        rw [← h1, if_pos rfl, List.map_cons, List.getElem?_cons_succ]
        rcases k with _ | j
        · have hm : 0 < m := by omega
          rw [List.getElem?_cons_zero, List.getElem?_map,
            passLoop_calls_head gen p rd true total m _ (ctr + 1)
              (some (humanizeCand rd raw)) hm,
            if_pos hm]
          rfl
        · rw [List.getElem?_cons_succ]
          exact ih _ _ _ _ _ _ j hrest (by omega)

/-- A rewrite model that always returns the same raw candidates. -/
def genConst : GenFun := fun _ _ => .ok ⟨"A — B.", "x", "y", "z"⟩

/-- `genConst`'s candidates after dash-removing post-processing. -/
def candW : Cand4 := ⟨"A, B.", "x", "y", "z"⟩

/-- Witness: C3 applied to a concrete 3-pass loop — the second call's
text is the prefix followed by candidate 0 of the first pass record. -/
theorem pass_chaining_witness :
    ((passLoop genConst (genParamsFor .High) true true 9 3 "t" 0 none).calls.map
        (fun c => c.2))[0 + 1]? =
      (([candW, candW, candW] : List Cand4)[0]?).map (fun r => taskPrefix ++ r.c0) :=
  pass_chaining genConst (genParamsFor .High) true 9 3 "t" 0 none
    [candW, candW, candW] (some candW) 3 0 rfl (by omega)

/-- The counter values `0 :: (range N ++ [N])` form a `≤`-chain. -/
lemma chain_le_zero_range (N : Nat) :
    List.Chain' (fun a b => a ≤ b) (0 :: (List.range N ++ [N])) := by
  apply List.Pairwise.chain'
  refine List.pairwise_cons.mpr ⟨fun b _ => Nat.zero_le b, ?_⟩
  refine List.pairwise_append.mpr ⟨?_, ?_, ?_⟩
  · exact (List.pairwise_lt_range N).imp (fun h => Nat.le_of_lt h)
  · exact List.pairwise_singleton _ _
  · intro a ha b hb
    rw [List.mem_singleton.mp hb]
    exact Nat.le_of_lt (List.mem_range.mp ha)

/-- **C4.** On a successful run, `totalUnits` equals the chunk count
times the effective pass count; the emitted progress values are exactly
`0` (the initial event), then one value per (chunk, pass) unit counting
`0, 1, …, totalUnits − 1` (each unit exactly 1 more than the previous),
then a final `Complete!` event at `totalUnits` — so the sequence is
monotonically non-decreasing, the final event carries
`completed = totalUnits`, and no event follows it.  Every event carries
`totalUnits` as its total. -/
theorem progress_totals_exact (gen : GenFun) (tok : String → Nat) (st : Settings)
    (input : String) (outs : List String) (hpass : 1 ≤ effectivePasses st)
    (h : (processText gen tok st input).outcome = .ok outs) :
    totalUnits tok st input =
      (split_into_chunks tok input).length * effectivePasses st ∧
    (processText gen tok st input).events.map (fun ev => ev.1) =
      0 :: (List.range (totalUnits tok st input) ++ [totalUnits tok st input]) ∧
    List.Chain' (fun a b => a ≤ b)
      ((processText gen tok st input).events.map (fun ev => ev.1)) ∧
    (∀ ev ∈ (processText gen tok st input).events,
      ev.2.1 = totalUnits tok st input) ∧
    (processText gen tok st input).events.getLast? =
      some (totalUnits tok st input, totalUnits tok st input, "Complete!") := by
  simp only [totalUnits]
  rw [processText] at h
  rcases hr : (chunkLoop gen (genParamsFor st.strength) st.remove_dashes
      st.save_intermediate
      ((split_into_chunks tok input).length * effectivePasses st) (effectivePasses st)
      (split_into_chunks tok input) 0 none [] ⟨[], [], [], []⟩).2.2.2 with
    e | ⟨vers, ctrF⟩
  · rw [hr] at h; cases h
  · obtain ⟨hcallslen, _⟩ := chunkLoop_ok_calls_ctr gen (genParamsFor st.strength)
      st.remove_dashes st.save_intermediate
      ((split_into_chunks tok input).length * effectivePasses st) (effectivePasses st)
      (by omega) (split_into_chunks tok input) 0 none [] ⟨[], [], [], []⟩
      _ _ _ vers ctrF (by rw [← hr])
    have hevents := chunkLoop_events_calls gen (genParamsFor st.strength)
      st.remove_dashes st.save_intermediate
      ((split_into_chunks tok input).length * effectivePasses st) (effectivePasses st)
      (split_into_chunks tok input) 0 none [] ⟨[], [], [], []⟩
    have hm : (processText gen tok st input).events.map (fun ev => ev.1) =
        0 :: (List.range ((split_into_chunks tok input).length * effectivePasses st) ++
          [(split_into_chunks tok input).length * effectivePasses st]) := by
      rw [processText, hr]
      dsimp only
      rw [List.map_append, List.map_cons, hevents, hcallslen, evSeq_map_fst,
        ← List.range_eq_range']
      rfl
    have htot : ∀ ev ∈ (processText gen tok st input).events,
        ev.2.1 = (split_into_chunks tok input).length * effectivePasses st := by
      rw [processText, hr]
      dsimp only
      intro ev hev
      rcases List.mem_append.mp hev with hev | hev
      · rcases List.mem_cons.mp hev with rfl | hev
        · rfl
        · rw [hevents] at hev
          exact evSeq_total _ _ _ ev hev
      · rw [List.mem_singleton.mp hev]
    have hlast : (processText gen tok st input).events.getLast? =
        some ((split_into_chunks tok input).length * effectivePasses st,
          (split_into_chunks tok input).length * effectivePasses st, "Complete!") := by
      rw [processText, hr]
      dsimp only
      rw [List.getLast?_concat]
    exact ⟨trivial, hm, hm.symm ▸ chain_le_zero_range _, htot, hlast⟩

/-- A rewrite model returning fixed candidates, for concrete runs. -/
def genConstW : GenFun := fun _ _ => .ok ⟨"a", "b", "c", "d"⟩

/-- A token counter making every sentence its own chunk. -/
def tok40 : String → Nat := fun _ => 40

/-- Witness: C4 applied to a concrete successful 2-chunk, 1-pass run. -/
theorem progress_totals_exact_witness :
    totalUnits tok40 defaultSettings "A. B." =
      (split_into_chunks tok40 "A. B.").length * effectivePasses defaultSettings ∧
    (processText genConstW tok40 defaultSettings "A. B.").events.map
        (fun ev => ev.1) =
      0 :: (List.range (totalUnits tok40 defaultSettings "A. B.") ++
        [totalUnits tok40 defaultSettings "A. B."]) ∧
    List.Chain' (fun a b => a ≤ b)
      ((processText genConstW tok40 defaultSettings "A. B.").events.map
        (fun ev => ev.1)) ∧
    (∀ ev ∈ (processText genConstW tok40 defaultSettings "A. B.").events,
      ev.2.1 = totalUnits tok40 defaultSettings "A. B.") ∧
    (processText genConstW tok40 defaultSettings "A. B.").events.getLast? =
      some (totalUnits tok40 defaultSettings "A. B.",
        totalUnits tok40 defaultSettings "A. B.", "Complete!") :=
  progress_totals_exact genConstW tok40 defaultSettings "A. B."
    ["a a", "b b", "c c", "d d"] (by decide) rfl

/-- **C8.** On a successful run the assembler produces exactly 4 version
streams, and there is one final-pass post-processed 4-candidate tuple
per chunk — the last record of that chunk's intermediate entry — such
that stream `v` is the space-join, in chunk order, of each chunk's
candidate `v`. -/
theorem version_assembly (gen : GenFun) (tok : String → Nat) (st : Settings)
    (input : String) (outs : List String) (hpass : 1 ≤ effectivePasses st)
    (hsi : st.save_intermediate = true)
    (h : (processText gen tok st input).outcome = .ok outs) :
    outs.length = 4 ∧
    ∃ finals : List Cand4,
      finals.length = (split_into_chunks tok input).length ∧
      outs = [joinSp (finals.map (fun f => f.c0)),
        joinSp (finals.map (fun f => f.c1)),
        joinSp (finals.map (fun f => f.c2)),
        joinSp (finals.map (fun f => f.c3))] ∧
      (processText gen tok st input).inter.map Prod.fst =
        split_into_chunks tok input ∧
      List.Forall₂ (fun (cd : ChunkData) (f : Cand4) => cd.2.getLast? = some f)
        (processText gen tok st input).inter finals := by
  rw [processText, hsi] at h
  rcases hr : (chunkLoop gen (genParamsFor st.strength) st.remove_dashes true
      ((split_into_chunks tok input).length * effectivePasses st) (effectivePasses st)
      (split_into_chunks tok input) 0 none [] ⟨[], [], [], []⟩).2.2.2 with
    e | ⟨vers, ctrF⟩
  · rw [hr] at h; cases h
  · rw [hr] at h
    dsimp only at h
    injection h with houts
    obtain ⟨finals, pairs, hflen, hv0, hv1, hv2, hv3, hinter, hfst, hcd, hfa⟩ :=
      chunkLoop_ok_spec gen (genParamsFor st.strength) st.remove_dashes
        ((split_into_chunks tok input).length * effectivePasses st) (effectivePasses st)
        (by omega) (split_into_chunks tok input) 0 none [] ⟨[], [], [], []⟩
        _ _ _ vers ctrF (by rw [← hr])
    have hinterP : (processText gen tok st input).inter = pairs := by
      rw [processText, hsi, hr]
      dsimp only
      rw [hinter, List.nil_append]
    refine ⟨?_, finals, hflen, ?_, ?_, ?_⟩
    · rw [← houts]; rfl
    · rw [← houts, hv0, hv1, hv2, hv3]
      simp only [List.nil_append]
    · rw [hinterP, hfst]
    · rw [hinterP]; exact hfa

/-- Witness: C8 applied to a concrete successful 2-chunk, 1-pass run. -/
theorem version_assembly_witness :
    (["a a", "b b", "c c", "d d"] : List String).length = 4 ∧
    ∃ finals : List Cand4,
      finals.length = (split_into_chunks tok40 "A. B.").length ∧
      (["a a", "b b", "c c", "d d"] : List String) =
        [joinSp (finals.map (fun f => f.c0)),
          joinSp (finals.map (fun f => f.c1)),
          joinSp (finals.map (fun f => f.c2)),
          joinSp (finals.map (fun f => f.c3))] ∧
      (processText genConstW tok40 defaultSettings "A. B.").inter.map Prod.fst =
        split_into_chunks tok40 "A. B." ∧
      List.Forall₂ (fun (cd : ChunkData) (f : Cand4) => cd.2.getLast? = some f)
        (processText genConstW tok40 defaultSettings "A. B.").inter finals :=
  version_assembly genConstW tok40 defaultSettings "A. B."
    ["a a", "b b", "c c", "d d"] (by decide) rfl rfl

/-- **C5.** If the Generation Client raises during any (chunk, pass)
unit, the run aborts with no retry: the failing call is the last call
made, the raised message is surfaced verbatim (wrapped in the fixed
`"Error during processing:\n"` prefix) as the reported outcome, exactly
one pre-unit progress event was emitted per attempted unit (so no events
follow the failure), the final versions are never produced, and the
intermediate store retains exactly the full records of the chunks
completed before the failure, in order. -/
theorem generation_failure_aborts (gen : GenFun) (tok : String → Nat) (st : Settings)
    (input : String) (e : String) (hpass : 1 ≤ effectivePasses st)
    (hsi : st.save_intermediate = true)
    (h : (processText gen tok st input).outcome = .error e) :
    (∃ gmsg c, e = "Error during processing:\n" ++ gmsg ∧
      (processText gen tok st input).calls.getLast? = some c ∧
      gen c.1 c.2 = .error gmsg) ∧
    (processText gen tok st input).events.map (fun ev => ev.1) =
      0 :: List.range (processText gen tok st input).calls.length ∧
    ∃ k, k < (split_into_chunks tok input).length ∧
      (processText gen tok st input).inter.map Prod.fst =
        (split_into_chunks tok input).take k ∧
      (processText gen tok st input).inter.length = k ∧
      (∀ cd ∈ (processText gen tok st input).inter,
        cd.2.length = effectivePasses st) := by
  rw [processText, hsi] at h
  rcases hr : (chunkLoop gen (genParamsFor st.strength) st.remove_dashes true
      ((split_into_chunks tok input).length * effectivePasses st) (effectivePasses st)
      (split_into_chunks tok input) 0 none [] ⟨[], [], [], []⟩).2.2.2 with
    e' | ⟨vers, ctrF⟩
  · rw [hr] at h
    dsimp only at h
    injection h with he
    obtain ⟨⟨c, hc, hgen⟩, pairs, k, hinter, hfst, hk, hklen, hcd⟩ :=
      chunkLoop_error_spec gen (genParamsFor st.strength) st.remove_dashes
        ((split_into_chunks tok input).length * effectivePasses st) (effectivePasses st)
        (by omega) (split_into_chunks tok input) 0 none [] ⟨[], [], [], []⟩
        _ _ _ e' (by rw [← hr])
    refine ⟨⟨e', c, he.symm, ?_, hgen⟩, ?_, k, hk, ?_, ?_, ?_⟩
    · rw [processText, hsi, hr]
      dsimp only
      exact hc
    · rw [processText, hsi, hr]
      dsimp only
      rw [List.map_cons,
        chunkLoop_events_calls gen (genParamsFor st.strength) st.remove_dashes true
          ((split_into_chunks tok input).length * effectivePasses st)
          (effectivePasses st) (split_into_chunks tok input) 0 none []
          ⟨[], [], [], []⟩,
        evSeq_map_fst, ← List.range_eq_range']
    · rw [processText, hsi, hr]
      dsimp only
      rw [hinter, List.nil_append, hfst]
    · rw [processText, hsi, hr]
      dsimp only
      rw [hinter, List.nil_append, hklen]
    · rw [processText, hsi, hr]
      dsimp only
      intro cd hcd'
      rw [hinter, List.nil_append] at hcd'
      exact hcd cd hcd'
  · rw [hr] at h; cases h

/-- A rewrite model that fails on the second chunk's call. -/
def genFailW : GenFun := fun _ s =>
  if s = "paraphraser: B." then .error "boom" else .ok ⟨"a", "b", "c", "d"⟩

/-- Witness: C5 applied to the spec's scenario — the Generation Client
raises on the 2nd unit of a 5-unit run. -/
theorem generation_failure_aborts_witness :
    (∃ gmsg c, "Error during processing:\nboom" =
        "Error during processing:\n" ++ gmsg ∧
      (processText genFailW tok40 defaultSettings "A. B. C. D. E.").calls.getLast? =
        some c ∧
      genFailW c.1 c.2 = .error gmsg) ∧
    (processText genFailW tok40 defaultSettings "A. B. C. D. E.").events.map
        (fun ev => ev.1) =
      0 :: List.range
        (processText genFailW tok40 defaultSettings "A. B. C. D. E.").calls.length ∧
    ∃ k, k < (split_into_chunks tok40 "A. B. C. D. E.").length ∧
      (processText genFailW tok40 defaultSettings "A. B. C. D. E.").inter.map
          Prod.fst =
        (split_into_chunks tok40 "A. B. C. D. E.").take k ∧
      (processText genFailW tok40 defaultSettings "A. B. C. D. E.").inter.length =
        k ∧
      (∀ cd ∈ (processText genFailW tok40 defaultSettings "A. B. C. D. E.").inter,
        cd.2.length = effectivePasses defaultSettings) :=
  generation_failure_aborts genFailW tok40 defaultSettings "A. B. C. D. E."
    "Error during processing:\nboom" (by decide) rfl rfl

end AIDeleter